import Mathlib


namespace CmsKitCli

abbrev Str := List Char

/-- Splitting a prefix of an append: it is a prefix of the first part, or it
extends the whole first part by a prefix of the second. -/
theorem prefix_append_split {w a b : List Char} (h : w <+: a ++ b) :
    w <+: a ∨ ∃ y, w = a ++ y ∧ y <+: b := by
  induction a generalizing w with
  | nil => exact Or.inr ⟨w, by simpa using h, by simpa using h⟩
  | cons c a' ih =>
    match w with
    | [] => exact Or.inl ( List.nil_prefix)
    | d :: w' =>
      rw [List.cons_append, List.cons_prefix_cons] at h
      obtain ⟨rfl, h'⟩ := h
      rcases ih h' with hl | ⟨y, rfl, hy⟩
      · exact Or.inl (List.cons_prefix_cons.mpr ⟨rfl, hl⟩)
      · exact Or.inr ⟨y, rfl, hy⟩

/-- Splitting an infix of an append: it lies in one part or spans the boundary
with a nonempty suffix of the first part and a nonempty prefix of the second. -/
theorem infix_append_split {p a b : List Char} (h : p <:+: a ++ b) :
    p <:+: a ∨ p <:+: b ∨
      ∃ x y, p = x ++ y ∧ x ≠ [] ∧ y ≠ [] ∧ x <:+ a ∧ y <+: b := by
  induction a generalizing p with
  | nil => exact Or.inr (Or.inl (by simpa using h))
  | cons c a' ih =>
    rw [List.cons_append, List.infix_cons_iff] at h
    rcases h with hpre | hin
    · rcases prefix_append_split (show p <+: (c :: a') ++ b by simpa using hpre) with
        hl | ⟨y, rfl, hy⟩
      · exact Or.inl hl.isInfix
      · match y, hy with
        | [], _ => exact Or.inl (by simp)
        | e :: y', hy =>
          exact Or.inr (Or.inr ⟨c :: a', e :: y', rfl, by simp, by simp,
            List.suffix_refl _, hy⟩)
    · rcases ih hin with hl | hr | ⟨x, y, rfl, hx, hy, hsuf, hpre⟩
      · exact Or.inl (hl.trans (List.suffix_cons c a').isInfix)
      · exact Or.inr (Or.inl hr)
      · exact Or.inr (Or.inr ⟨x, y, rfl, hx, hy, hsuf.trans (List.suffix_cons c a'), hpre⟩)


def repAll (p t : Str) : Str → Str
  | [] => []
  | c :: s =>
    if p ≠ [] ∧ p <+: (c :: s) then
      t ++ repAll p t ((c :: s).drop p.length)
    else
      c :: repAll p t s
  termination_by s => s.length
  decreasing_by
  · simp only [List.length_drop, List.length_cons]
    have hp : 0 < p.length := List.length_pos.mpr (by tauto)
    omega
  · simp

theorem repAll_nil (p t : Str) : repAll p t [] = [] := by
  rw [repAll]

theorem repAll_cons (p t : Str) (c : Char) (s : Str) :
    repAll p t (c :: s) =
      if p ≠ [] ∧ p <+: (c :: s) then
        t ++ repAll p t ((c :: s).drop p.length)
      else
        c :: repAll p t s := by
  rw [repAll]


/-- Fuel-indexed evaluator for `repAll`, structurally recursive so that
concrete instances reduce inside `decide`. -/
def repAllFuel (p t : Str) : Nat → Str → Str
  | 0, s => s
  | _ + 1, [] => []
  | n + 1, c :: s =>
    if p ≠ [] ∧ p <+: (c :: s) then
      t ++ repAllFuel p t n ((c :: s).drop p.length)
    else
      c :: repAllFuel p t n s

theorem repAllFuel_eq (p t : Str) :
    ∀ (n : Nat) (s : Str), s.length ≤ n → repAllFuel p t n s = repAll p t s := by
  intro n
  induction n with
  | zero =>
    intro s hs
    have : s = [] := List.eq_nil_of_length_eq_zero (Nat.le_zero.mp hs)
    subst this
    simp [repAllFuel, repAll_nil]
  | succ n ih =>
    intro s hs
    match s with
    | [] => simp [repAllFuel, repAll_nil]
    | c :: s' =>
      rw [repAllFuel, repAll_cons]
      by_cases h : p ≠ [] ∧ p <+: (c :: s')
      · rw [if_pos h, if_pos h, ih]
        simp only [List.length_drop, List.length_cons]
        have hp : 0 < p.length := List.length_pos.mpr h.1
        simp only [List.length_cons] at hs
        omega
      · rw [if_neg h, if_neg h, ih]
        simp only [List.length_cons] at hs
        omega

/-- Replacing a pattern by itself is the identity (the `$lib/` rule). -/
theorem repAll_self (p : Str) : ∀ s, repAll p p s = s := by
  intro s
  induction s using repAll.induct p p with
  | case1 => exact repAll_nil p p
  | case2 c s h ih =>
    rw [repAll_cons, if_pos h, ih]
    exact List.prefix_iff_eq_append.mp h.2
  | case3 c s h ih =>
    rw [repAll_cons, if_neg h, ih]

/-- On a pattern-free input the replacement is the identity. -/
theorem repAll_eq_self_of_free (p t : Str) :
    ∀ s, ¬ p <:+: s → repAll p t s = s := by
  intro s
  induction s using repAll.induct p t with
  | case1 => intro _; exact repAll_nil p t
  | case2 c s h ih =>
    intro hfree
    exact absurd h.2.isInfix hfree
  | case3 c s h ih =>
    intro hfree
    rw [repAll_cons, if_neg h, ih]
    intro hin
    exact hfree (hin.trans (List.suffix_cons c s).isInfix)

/-- Tracing a prefix of the output of `repAll` back to the input: either it is
a prefix of the input, or it splits into a prefix of the input followed by a
nonempty block aligned with the start of an inserted replacement. -/
theorem repAll_prefix_trace (p t : Str) :
    ∀ s w, w <+: repAll p t s →
      w <+: s ∨ ∃ a b, w = a ++ b ∧ a <+: s ∧ b ≠ [] ∧ (b <+: t ∨ t <+: b) := by
  intro s
  induction s using repAll.induct p t with
  | case1 =>
    intro w hw
    rw [repAll_nil] at hw
    exact Or.inl hw
  | case2 c s h ih =>
    intro w hw
    rw [repAll_cons, if_pos h] at hw
    rcases prefix_append_split hw with hwt | ⟨y, rfl, hy⟩
    · match w, hwt with
      | [], _ => exact Or.inl List.nil_prefix
      | e :: w', hwt =>
        exact Or.inr ⟨[], e :: w', rfl, List.nil_prefix, by simp, Or.inl hwt⟩
    · rcases y with _ | ⟨e, y'⟩
      · rcases t with _ | ⟨f, t'⟩
        · exact Or.inl (by simp)
        · exact Or.inr ⟨[], (f :: t') ++ [], rfl, List.nil_prefix, by simp,
            Or.inl (by simp)⟩
      · exact Or.inr ⟨[], t ++ (e :: y'), rfl, List.nil_prefix, by simp,
          Or.inr (List.prefix_append t (e :: y'))⟩
  | case3 c s h ih =>
    intro w hw
    rw [repAll_cons, if_neg h] at hw
    match w, hw with
    | [], _ => exact Or.inl List.nil_prefix
    | e :: w', hw =>
      rw [List.cons_prefix_cons] at hw
      obtain ⟨rfl, hw'⟩ := hw
      rcases ih w' hw' with hl | ⟨a, b, rfl, ha, hb, hbt⟩
      · exact Or.inl (List.cons_prefix_cons.mpr ⟨rfl, hl⟩)
      · exact Or.inr ⟨e :: a, b, rfl, List.cons_prefix_cons.mpr ⟨rfl, ha⟩, hb, hbt⟩

end CmsKitCli

namespace CmsKitCli

/-- Side conditions under which the rewrite `p ↦ t` of `repAll` can never
create an occurrence of the pattern `q` in its output: `q` does not occur
inside `t`, no nonempty proper prefix of `q` is a suffix of `t`, and no
nonempty proper suffix of `q` is a prefix of `t` or is extended by `t`. -/
def NoRecreate (q t : Str) : Prop :=
  ¬ q <:+: t ∧
  (∀ k, k < q.length → 0 < k → ¬ q.take k <:+ t) ∧
  (∀ k, k < q.length → 0 < k → ¬ (q.drop k <+: t ∨ t <+: q.drop k))

instance (q t : Str) : Decidable (NoRecreate q t) := by
  unfold NoRecreate
  infer_instance

/-- The output of `repAll p t` never contains the pattern `p` when the
replacement `t` cannot recreate it. -/
theorem repAll_not_infix_output (p t : Str) (hp : p ≠ []) (hnr : NoRecreate p t) :
    ∀ s, ¬ p <:+: repAll p t s := by
  intro s
  induction s using repAll.induct p t with
  | case1 =>
    rw [repAll_nil]
    intro hin
    exact hp (List.eq_nil_of_infix_nil hin)
  | case2 c s h ih =>
    rw [repAll_cons, if_pos h]
    intro hin
    rcases infix_append_split hin with ht | hO | ⟨x, y, hxy, hx, hy, hsuf, hpre⟩
    · exact hnr.1 ht
    · exact ih hO
    · have hk : x.length < p.length := by
        rw [hxy, List.length_append]
        have : 0 < y.length := List.length_pos.mpr hy
        omega
      have hx0 : 0 < x.length := List.length_pos.mpr hx
      have htake : p.take x.length = x := by
        rw [hxy]
        exact List.take_left x y
      exact hnr.2.1 x.length hk hx0 (by rw [htake]; exact hsuf)
  | case3 c s h ih =>
    rw [repAll_cons, if_neg h]
    intro hin
    rcases List.infix_cons_iff.mp hin with hpre | hO
    · rcases p with _ | ⟨d, p'⟩
      · exact hp rfl
      · rw [List.cons_prefix_cons] at hpre
        obtain ⟨rfl, hpre'⟩ := hpre
        rcases repAll_prefix_trace (d :: p') t s p' hpre' with
          hps | ⟨a, b, hab, ha, hb, hbt⟩
        · exact h ⟨hp, List.cons_prefix_cons.mpr ⟨rfl, hps⟩⟩
        · have hk : (d :: a).length < (d :: p').length := by
            have hbpos : 0 < b.length := List.length_pos.mpr hb
            simp only [List.length_cons, hab, List.length_append]
            omega
          have hsplit : d :: p' = (d :: a) ++ b := by rw [hab]; rfl
          have hdrop : (d :: p').drop (d :: a).length = b := by
            rw [hsplit]
            exact List.drop_left (d :: a) b
          exact hnr.2.2 (d :: a).length hk (by simp) (by rw [hdrop]; exact hbt)
    · exact ih hO

/-- `repAll p t` preserves absence of any pattern `q` that its replacement
cannot recreate. -/
theorem repAll_preserves_free (p t q : Str) (hq : q ≠ []) (hnr : NoRecreate q t) :
    ∀ s, ¬ q <:+: s → ¬ q <:+: repAll p t s := by
  intro s
  induction s using repAll.induct p t with
  | case1 =>
    intro _
    rw [repAll_nil]
    intro hin
    exact hq (List.eq_nil_of_infix_nil hin)
  | case2 c s h ih =>
    intro hfree
    rw [repAll_cons, if_pos h]
    have hfree' : ¬ q <:+: (c :: s).drop p.length := fun hin =>
      hfree (hin.trans (List.drop_suffix p.length (c :: s)).isInfix)
    intro hin
    rcases infix_append_split hin with ht | hO | ⟨x, y, hxy, hx, hy, hsuf, hpre⟩
    · exact hnr.1 ht
    · exact ih hfree' hO
    · have hk : x.length < q.length := by
        rw [hxy, List.length_append]
        have : 0 < y.length := List.length_pos.mpr hy
        omega
      have hx0 : 0 < x.length := List.length_pos.mpr hx
      have htake : q.take x.length = x := by
        rw [hxy]
        exact List.take_left x y
      exact hnr.2.1 x.length hk hx0 (by rw [htake]; exact hsuf)
  | case3 c s h ih =>
    intro hfree
    rw [repAll_cons, if_neg h]
    have hfree' : ¬ q <:+: s := fun hin =>
      hfree (hin.trans (List.suffix_cons c s).isInfix)
    intro hin
    rcases List.infix_cons_iff.mp hin with hpre | hO
    · rcases q with _ | ⟨d, q'⟩
      · exact hq rfl
      · rw [List.cons_prefix_cons] at hpre
        obtain ⟨rfl, hpre'⟩ := hpre
        rcases repAll_prefix_trace p t s q' hpre' with
          hps | ⟨a, b, hab, ha, hb, hbt⟩
        · exact hfree (List.IsPrefix.isInfix
            (List.cons_prefix_cons.mpr ⟨rfl, hps⟩ : d :: q' <+: d :: s))
        · have hk : (d :: a).length < (d :: q').length := by
            have hbpos : 0 < b.length := List.length_pos.mpr hb
            simp only [List.length_cons, hab, List.length_append]
            omega
          have hsplit : d :: q' = (d :: a) ++ b := by rw [hab]; rfl
          have hdrop : (d :: q').drop (d :: a).length = b := by
            rw [hsplit]
            exact List.drop_left (d :: a) b
          exact hnr.2.2 (d :: a).length hk (by simp) (by rw [hdrop]; exact hbt)
    · exact ih hfree' hO

/-- A single `repAll` rewrite is idempotent when its replacement cannot
recreate its pattern. -/
theorem repAll_idem (p t : Str) (hp : p ≠ []) (hnr : NoRecreate p t) (s : Str) :
    repAll p t (repAll p t s) = repAll p t s :=
  repAll_eq_self_of_free p t _ (repAll_not_infix_output p t hp hnr s)

end CmsKitCli

namespace CmsKitCli

/-- Pattern `$lib/` of the first rewrite rule of `processFileContent`. -/
def dollarLib : Str := "$lib/".toList

/-- Pattern `$components/` of the second rewrite rule. -/
def dollarComponents : Str := "$components/".toList

/-- Replacement `$lib/components/` of the second rewrite rule. -/
def dollarLibComponents : Str := "$lib/components/".toList

/-- Pattern `.ts'` of the single-quote extension rule. -/
def tsSingle : Str := ".ts'".toList

/-- Replacement `.js'` of the single-quote extension rule. -/
def jsSingle : Str := ".js'".toList

/-- Pattern `.ts"` of the double-quote extension rule. -/
def tsDouble : Str := ".ts\"".toList

/-- Replacement `.js"` of the double-quote extension rule. -/
def jsDouble : Str := ".js\"".toList

/-- Model of `ComponentInstaller.processFileContent`: normalizes the `$lib/`
alias (a no-op rewrite), rewrites the `$components/` alias to
`$lib/components/`, and, when the project does not use TypeScript, rewrites
`.ts` extensions before a closing single or double quote to `.js`. -/
def processFileContent (typescript : Bool) (content : Str) : Str :=
  let c1 := repAll dollarLib dollarLib content
  let c2 := repAll dollarComponents dollarLibComponents c1
  if typescript then c2
  else repAll tsDouble jsDouble (repAll tsSingle jsSingle c2)

/-- Evaluation helper: compute `repAll` through its fuel-indexed variant. -/
theorem repAll_eval (p t s r : Str) (h : repAllFuel p t s.length s = r) :
    repAll p t s = r := by
  rw [← repAllFuel_eq p t s.length s (Nat.le_refl _)]
  exact h

theorem processFileContent_eq (typescript : Bool) (content : Str) :
    processFileContent typescript content =
      if typescript then repAll dollarComponents dollarLibComponents content
      else repAll tsDouble jsDouble (repAll tsSingle jsSingle
        (repAll dollarComponents dollarLibComponents content)) := by
  unfold processFileContent
  rw [repAll_self]

end CmsKitCli

namespace CmsKitCli

/-- C5: for every input text and every configuration, the content adapter
`processFileContent` is idempotent: adapting already-adapted content is a
no-op. -/
theorem processFileContent_idempotent_c5 (typescript : Bool) (x : Str) :
    processFileContent typescript (processFileContent typescript x) =
      processFileContent typescript x := by
  cases typescript with
  | true =>
    rw [processFileContent_eq, processFileContent_eq, if_pos rfl, if_pos rfl]
    exact repAll_idem dollarComponents dollarLibComponents (by decide) (by decide) x
  | false =>
    rw [processFileContent_eq false x, if_neg (by simp)]
    rw [processFileContent_eq false
      (repAll tsDouble jsDouble (repAll tsSingle jsSingle
        (repAll dollarComponents dollarLibComponents x))), if_neg (by simp)]
    have h2free : ¬ dollarComponents <:+:
        repAll tsDouble jsDouble (repAll tsSingle jsSingle
          (repAll dollarComponents dollarLibComponents x)) := by
      apply repAll_preserves_free _ _ _ (by decide) (by decide)
      apply repAll_preserves_free _ _ _ (by decide) (by decide)
      exact repAll_not_infix_output _ _ (by decide) (by decide) x
    have h3free : ¬ tsSingle <:+:
        repAll tsDouble jsDouble (repAll tsSingle jsSingle
          (repAll dollarComponents dollarLibComponents x)) := by
      apply repAll_preserves_free _ _ _ (by decide) (by decide)
      exact repAll_not_infix_output _ _ (by decide) (by decide) _
    have h4free : ¬ tsDouble <:+:
        repAll tsDouble jsDouble (repAll tsSingle jsSingle
          (repAll dollarComponents dollarLibComponents x)) :=
      repAll_not_infix_output _ _ (by decide) (by decide) _
    rw [repAll_eq_self_of_free _ _ _ h2free, repAll_eq_self_of_free _ _ _ h3free,
      repAll_eq_self_of_free _ _ _ h4free]

/-- C8 counterexample: with `typescript = true` the adapter is not the
identity on every input containing `.ts'`, because the `$components/` alias
rule still rewrites the text. -/
theorem extension_rewrite_counterexample_c8 :
    tsSingle <:+: "$components/x.ts'".toList ∧
      processFileContent true "$components/x.ts'".toList ≠
        "$components/x.ts'".toList := by
  constructor
  · decide
  · rw [processFileContent_eq, if_pos rfl,
      repAll_eval dollarComponents dollarLibComponents "$components/x.ts'".toList
        "$lib/components/x.ts'".toList (by decide)]
    decide

/-- C8 (amended): with `typescript = false` no `.ts'` or `.ts"` occurrence
survives adaptation and both quoting styles are rewritten to `.js`; with
`typescript = true` the extension rules are skipped, and the input is
unchanged provided it contains no `$components/` alias occurrence. -/
theorem extension_rewrite_amended_c8 :
    (∀ x : Str, ¬ tsSingle <:+: processFileContent false x ∧
        ¬ tsDouble <:+: processFileContent false x) ∧
    (∀ x : Str, ¬ dollarComponents <:+: x → processFileContent true x = x) ∧
    processFileContent false "import Y from 'a.ts'; import Z from \"b.ts\";".toList =
      "import Y from 'a.js'; import Z from \"b.js\";".toList := by
  refine ⟨fun x => ⟨?_, ?_⟩, fun x h => ?_, ?_⟩
  · rw [processFileContent_eq, if_neg (by simp)]
    exact repAll_preserves_free tsDouble jsDouble tsSingle (by decide) (by decide) _
      (repAll_not_infix_output tsSingle jsSingle (by decide) (by decide) _)
  · rw [processFileContent_eq, if_neg (by simp)]
    exact repAll_not_infix_output tsDouble jsDouble (by decide) (by decide) _
  · rw [processFileContent_eq, if_pos rfl]
    exact repAll_eq_self_of_free _ _ x h
  · rw [processFileContent_eq, if_neg (by simp)]
    rw [repAll_eval dollarComponents dollarLibComponents
      "import Y from 'a.ts'; import Z from \"b.ts\";".toList
      "import Y from 'a.ts'; import Z from \"b.ts\";".toList (by decide)]
    rw [repAll_eval tsSingle jsSingle
      "import Y from 'a.ts'; import Z from \"b.ts\";".toList
      "import Y from 'a.js'; import Z from \"b.ts\";".toList (by decide)]
    exact repAll_eval tsDouble jsDouble
      "import Y from 'a.js'; import Z from \"b.ts\";".toList
      "import Y from 'a.js'; import Z from \"b.js\";".toList (by decide)

/-- Witness for the amended C8 theorem at concrete inputs. -/
theorem extension_rewrite_amended_c8_witness :
    ¬ dollarComponents <:+: "x.ts'".toList ∧
      processFileContent true "x.ts'".toList = "x.ts'".toList :=
  ⟨by decide, extension_rewrite_amended_c8.2.1 "x.ts'".toList (by decide)⟩

end CmsKitCli


namespace CmsKitCli


/-- Kind tag of a component file (`type` field of the file schema). -/
inductive FileKind
  | component
  | style
  | util
  | typ
deriving DecidableEq

/-- A file of a component descriptor. -/
structure ComponentFile where
  path : String
  content : Str
  kind : FileKind
deriving DecidableEq

/-- A component descriptor as validated by the registry schema. Optional
dependency arrays are modelled as plain lists, `[]` standing for an absent
field exactly as `component.dependencies || []` reads them. -/
structure Component where
  id : String
  name : String
  description : String
  category : String
  dependencies : List String
  devDependencies : List String
  registryDependencies : List String
  files : List ComponentFile
deriving DecidableEq

/-- The registry seen through `ComponentRegistry.getComponent`: a finite map
from identifiers to descriptors. The per-instance cache always returns the
same descriptor as the first fetch, so fetch-by-id is modelled as pure
lookup. `none` models the thrown `Component "id" not found` error. -/
abbrev Registry := List (String × Component)

/-- Lookup of one identifier in the registry. -/
def regLookup (reg : Registry) (i : String) : Option Component :=
  (reg.find? (fun e => e.1 == i)).map (fun e => e.2)

/-- Number of registry keys not yet recorded in the resolved mapping: the
primary termination measure of the BFS loop. -/
def unresolvedCount (reg : Registry) (resolved : List (String × Component)) : Nat :=
  ((reg.map Prod.fst).filter (fun k => !((resolved.map Prod.fst).contains k))).length

theorem length_filter_le_of_imp {α : Type} (l : List α) (p q : α → Bool)
    (himp : ∀ x, q x = true → p x = true) :
    (l.filter q).length ≤ (l.filter p).length := by
  induction l with
  | nil => simp
  | cons a l ih =>
    by_cases hq : q a = true
    · rw [List.filter_cons_of_pos hq, List.filter_cons_of_pos (himp a hq)]
      simpa using ih
    · rw [List.filter_cons_of_neg (by simpa using hq)]
      by_cases hp : p a = true
      · rw [List.filter_cons_of_pos hp]
        exact Nat.le_succ_of_le ih
      · rw [List.filter_cons_of_neg (by simpa using hp)]
        exact ih

theorem length_filter_lt_of_flip {α : Type} (l : List α) (p q : α → Bool)
    (himp : ∀ x, q x = true → p x = true)
    (x : α) (hx : x ∈ l) (hpx : p x = true) (hqx : q x = false) :
    (l.filter q).length < (l.filter p).length := by
  induction l with
  | nil => cases hx
  | cons a l ih =>
    rcases List.mem_cons.mp hx with rfl | hxl
    · rw [List.filter_cons_of_neg (by simp [hqx]), List.filter_cons_of_pos hpx]
      exact Nat.lt_succ_of_le (length_filter_le_of_imp l p q himp)
    · by_cases hq : q a = true
      · rw [List.filter_cons_of_pos hq, List.filter_cons_of_pos (himp a hq)]
        simpa using ih hxl
      · rw [List.filter_cons_of_neg (by simpa using hq)]
        by_cases hp : p a = true
        · rw [List.filter_cons_of_pos hp]
          exact Nat.lt_succ_of_lt (ih hxl)
        · rw [List.filter_cons_of_neg (by simpa using hp)]
          exact ih hxl

/-- The BFS loop of `ComponentInstaller.resolveComponentsWithDependencies`:
pop the front identifier, skip it if already resolved, otherwise fetch its
descriptor, record it, and enqueue its registry dependencies that are not yet
resolved. Resolution aborts on the first unknown identifier. -/
def resolveGo (reg : Registry) (queue : List String)
    (resolved : List (String × Component)) :
    Except String (List (String × Component)) :=
  match queue with
  | [] => .ok resolved
  | i :: rest =>
    if hcont : (resolved.map Prod.fst).contains i then
      resolveGo reg rest resolved
    else
      match hreg : regLookup reg i with
      | none => .error ("Component \"" ++ i ++ "\" not found")
      | some c =>
        resolveGo reg
          (rest ++ c.registryDependencies.filter
            (fun d => !(((resolved ++ [(i, c)]).map Prod.fst).contains d)))
          (resolved ++ [(i, c)])
  termination_by (unresolvedCount reg resolved, queue.length)
  decreasing_by
  · apply Prod.Lex.right
    simp
  · apply Prod.Lex.left
    have hi : i ∈ reg.map Prod.fst := by
      rcases hfind : reg.find? (fun e => e.1 == i) with _ | e
      · rw [regLookup, hfind] at hreg
        simp at hreg
      · have hmem := List.mem_of_find?_eq_some hfind
        have heq := List.find?_some hfind
        simp only [beq_iff_eq] at heq
        exact heq ▸ List.mem_map_of_mem Prod.fst hmem
    unfold unresolvedCount
    refine length_filter_lt_of_flip (reg.map Prod.fst) _ _ ?_ i hi ?_ ?_
    · intro x hx
      have hx' : x ∉ (resolved ++ [(i, c)]).map Prod.fst := by
        intro hm
        rw [Bool.not_eq_true', Bool.eq_false_iff] at hx
        exact hx (List.elem_iff.mpr hm)
      rw [Bool.not_eq_true', Bool.eq_false_iff]
      intro hc
      refine hx' ?_
      rw [List.map_append]
      exact List.mem_append_left _ (List.elem_iff.mp hc)
    · rw [Bool.not_eq_true', Bool.eq_false_iff]
      exact hcont
    · simp only [Bool.not_eq_false']
      exact List.elem_iff.mpr (by simp)


theorem resolveGo_nil (reg : Registry) (resolved : List (String × Component)) :
    resolveGo reg [] resolved = .ok resolved := by
  rw [resolveGo]

theorem resolveGo_cons (reg : Registry) (i : String) (rest : List String)
    (resolved : List (String × Component)) :
    resolveGo reg (i :: rest) resolved =
      if (resolved.map Prod.fst).contains i then
        resolveGo reg rest resolved
      else
        match regLookup reg i with
        | none => .error ("Component \"" ++ i ++ "\" not found")
        | some c =>
          resolveGo reg
            (rest ++ c.registryDependencies.filter
              (fun d => !(((resolved ++ [(i, c)]).map Prod.fst).contains d)))
            (resolved ++ [(i, c)]) := by
  rw [resolveGo]
  by_cases h : (resolved.map Prod.fst).contains i
  · rw [dif_pos h, if_pos h]
  · rw [dif_neg h, if_neg h]
    rcases regLookup reg i with _ | c <;> rfl

/-- Fuel-indexed evaluator for `resolveGo`, structurally recursive so that
concrete runs reduce inside `decide`. -/
def resolveGoFuel (reg : Registry) : Nat → List String →
    List (String × Component) →
    Option (Except String (List (String × Component)))
  | 0, _, _ => none
  | _ + 1, [], resolved => some (.ok resolved)
  | n + 1, i :: rest, resolved =>
    if (resolved.map Prod.fst).contains i then
      resolveGoFuel reg n rest resolved
    else
      match regLookup reg i with
      | none => some (.error ("Component \"" ++ i ++ "\" not found"))
      | some c =>
        resolveGoFuel reg n
          (rest ++ c.registryDependencies.filter
            (fun d => !(((resolved ++ [(i, c)]).map Prod.fst).contains d)))
          (resolved ++ [(i, c)])

theorem resolveGoFuel_sound (reg : Registry) :
    ∀ (n : Nat) (q : List String) (r : List (String × Component)) res,
      resolveGoFuel reg n q r = some res → resolveGo reg q r = res := by
  intro n
  induction n with
  | zero => intro q r res h; simp [resolveGoFuel] at h
  | succ n ih =>
    intro q r res h
    match q with
    | [] =>
      rw [resolveGoFuel] at h
      rw [resolveGo_nil]
      exact (Option.some_inj.mp h)
    | i :: rest =>
      rw [resolveGoFuel] at h
      rw [resolveGo_cons]
      by_cases hc : (r.map Prod.fst).contains i
      · rw [if_pos hc] at h
        rw [if_pos hc]
        exact ih _ _ _ h
      · rw [if_neg hc] at h
        rw [if_neg hc]
        rcases hl : regLookup reg i with _ | c
        · rw [hl] at h
          exact Option.some_inj.mp h
        · rw [hl] at h
          exact ih _ _ _ h

/-- Model of `ComponentInstaller.resolveComponentsWithDependencies`: BFS
closure of the requested identifiers, returned in the order identifiers first
entered the resolved mapping. -/
def resolveComponentsWithDependencies (reg : Registry) (componentIds : List String) :
    Except String (List Component) :=
  (resolveGo reg componentIds []).map (fun r => r.map Prod.snd)


/-- On success the final resolved list extends the initial one. -/
theorem resolveGo_extends (reg : Registry) (queue : List String)
    (resolved : List (String × Component)) :
    ∀ out, resolveGo reg queue resolved = .ok out → resolved <+: out := by
  induction queue, resolved using resolveGo.induct reg with
  | case1 r =>
    intro out h
    rw [resolveGo_nil] at h
    exact (Except.ok.inj h) ▸ List.prefix_refl _
  | case2 r i rest hcont ih =>
    intro out h
    rw [resolveGo_cons, if_pos hcont] at h
    exact ih out h
  | case3 r i rest hcont hreg =>
    intro out h
    rw [resolveGo_cons, if_neg hcont, hreg] at h
    cases h
  | case4 r i rest hcont c hreg ih =>
    intro out h
    rw [resolveGo_cons, if_neg hcont, hreg] at h
    exact ((List.prefix_append r [(i, c)]).trans (ih out h))


/-- Every identifier of the work queue ends up in the resolved output. -/
theorem resolveGo_queue_mem (reg : Registry) (queue : List String)
    (resolved : List (String × Component)) :
    ∀ out, resolveGo reg queue resolved = .ok out →
      ∀ j, j ∈ queue → j ∈ out.map Prod.fst := by
  induction queue, resolved using resolveGo.induct reg with
  | case1 r =>
    intro out h j hj
    cases hj
  | case2 r i rest hcont ih =>
    intro out h j hj
    rw [resolveGo_cons, if_pos hcont] at h
    rcases List.mem_cons.mp hj with rfl | hj'
    · have hpre := resolveGo_extends reg rest r out h
      rcases List.mem_map.mp (List.elem_iff.mp hcont) with ⟨pr, hpr, rfl⟩
      exact List.mem_map_of_mem Prod.fst (hpre.subset hpr)
    · exact ih out h j hj'
  | case3 r i rest hcont hreg =>
    intro out h j hj
    rw [resolveGo_cons, if_neg hcont, hreg] at h
    cases h
  | case4 r i rest hcont c hreg ih =>
    intro out h j hj
    rw [resolveGo_cons, if_neg hcont, hreg] at h
    rcases List.mem_cons.mp hj with rfl | hj'
    · have hpre := resolveGo_extends reg _ _ out h
      have hmem : (j, c) ∈ r ++ [(j, c)] :=
        List.mem_append_right r (List.mem_singleton_self (j, c))
      exact List.mem_map_of_mem Prod.fst (hpre.subset hmem)
    · exact ih out h j (List.mem_append_left _ hj')

/-- Every resolved pair was fetched from the registry. -/
theorem resolveGo_lookup (reg : Registry) (queue : List String)
    (resolved : List (String × Component)) :
    ∀ out, resolveGo reg queue resolved = .ok out →
      (∀ pr ∈ resolved, regLookup reg pr.1 = some pr.2) →
      ∀ pr ∈ out, regLookup reg pr.1 = some pr.2 := by
  induction queue, resolved using resolveGo.induct reg with
  | case1 r =>
    intro out h hr
    rw [resolveGo_nil] at h
    exact (Except.ok.inj h) ▸ hr
  | case2 r i rest hcont ih =>
    intro out h hr
    rw [resolveGo_cons, if_pos hcont] at h
    exact ih out h hr
  | case3 r i rest hcont hreg =>
    intro out h hr
    rw [resolveGo_cons, if_neg hcont, hreg] at h
    cases h
  | case4 r i rest hcont c hreg ih =>
    intro out h hr
    rw [resolveGo_cons, if_neg hcont, hreg] at h
    refine ih out h ?_
    intro pr hpr
    rcases List.mem_append.mp hpr with hl | hsing
    · exact hr pr hl
    · have : pr = (i, c) := by simpa using hsing
      rw [this]
      exact hreg

/-- Dependency closure: on success, every registry dependency of a resolved
component is itself resolved. -/
theorem resolveGo_closure (reg : Registry) (queue : List String)
    (resolved : List (String × Component)) :
    ∀ out, resolveGo reg queue resolved = .ok out →
      (∀ pr ∈ resolved, ∀ d ∈ pr.2.registryDependencies,
        d ∈ resolved.map Prod.fst ∨ d ∈ queue) →
      ∀ pr ∈ out, ∀ d ∈ pr.2.registryDependencies, d ∈ out.map Prod.fst := by
  induction queue, resolved using resolveGo.induct reg with
  | case1 r =>
    intro out h hr
    rw [resolveGo_nil] at h
    cases Except.ok.inj h
    intro pr hpr d hd
    rcases hr pr hpr d hd with hk | hq
    · exact hk
    · cases hq
  | case2 r i rest hcont ih =>
    intro out h hr
    rw [resolveGo_cons, if_pos hcont] at h
    refine ih out h ?_
    intro pr hpr d hd
    rcases hr pr hpr d hd with hk | hq
    · exact Or.inl hk
    · rcases List.mem_cons.mp hq with rfl | hq'
      · exact Or.inl (List.elem_iff.mp hcont)
      · exact Or.inr hq'
  | case3 r i rest hcont hreg =>
    intro out h hr
    rw [resolveGo_cons, if_neg hcont, hreg] at h
    cases h
  | case4 r i rest hcont c hreg ih =>
    intro out h hr
    rw [resolveGo_cons, if_neg hcont, hreg] at h
    refine ih out h ?_
    intro pr hpr d hd
    rcases List.mem_append.mp hpr with hl | hsing
    · rcases hr pr hl d hd with hk | hq
      · exact Or.inl (by rw [List.map_append]; exact List.mem_append_left _ hk)
      · rcases List.mem_cons.mp hq with rfl | hq'
        · exact Or.inl (by simp)
        · exact Or.inr (List.mem_append_left _ hq')
    · have hpc : pr = (i, c) := by simpa using hsing
      subst hpc
      by_cases hdk : d ∈ (r ++ [(i, c)]).map Prod.fst
      · exact Or.inl hdk
      · refine Or.inr (List.mem_append_right _ ?_)
        refine List.mem_filter.mpr ⟨hd, ?_⟩
        rw [Bool.not_eq_true', Bool.eq_false_iff]
        intro hcd
        exact hdk (List.elem_iff.mp hcd)

/-- The resolved mapping never records an identifier twice. -/
theorem resolveGo_nodup (reg : Registry) (queue : List String)
    (resolved : List (String × Component)) :
    ∀ out, resolveGo reg queue resolved = .ok out →
      (resolved.map Prod.fst).Nodup → (out.map Prod.fst).Nodup := by
  induction queue, resolved using resolveGo.induct reg with
  | case1 r =>
    intro out h hnd
    rw [resolveGo_nil] at h
    exact (Except.ok.inj h) ▸ hnd
  | case2 r i rest hcont ih =>
    intro out h hnd
    rw [resolveGo_cons, if_pos hcont] at h
    exact ih out h hnd
  | case3 r i rest hcont hreg =>
    intro out h hnd
    rw [resolveGo_cons, if_neg hcont, hreg] at h
    cases h
  | case4 r i rest hcont c hreg ih =>
    intro out h hnd
    rw [resolveGo_cons, if_neg hcont, hreg] at h
    refine ih out h ?_
    rw [List.map_append]
    refine List.nodup_append.mpr ⟨hnd, by simp, ?_⟩
    intro a ha hb
    have : a = i := by simpa using hb
    subst this
    exact hcont (List.elem_iff.mpr ha)


/-- Identifiers reachable from the requested set along registry-dependency
edges (the resolution closure of the spec). -/
inductive Reach (reg : Registry) (roots : List String) : String → Prop
  | root : ∀ i, i ∈ roots → Reach reg roots i
  | step : ∀ j c d, Reach reg roots j → regLookup reg j = some c →
      d ∈ c.registryDependencies → Reach reg roots d

/-- Soundness: every resolved identifier is reachable from the roots. -/
theorem resolveGo_reach (reg : Registry) (roots : List String)
    (queue : List String) (resolved : List (String × Component)) :
    ∀ out, resolveGo reg queue resolved = .ok out →
      (∀ i ∈ queue, Reach reg roots i) →
      (∀ pr ∈ resolved, Reach reg roots pr.1) →
      ∀ i ∈ out.map Prod.fst, Reach reg roots i := by
  induction queue, resolved using resolveGo.induct reg with
  | case1 r =>
    intro out h hq hr i hi
    rw [resolveGo_nil] at h
    cases Except.ok.inj h
    rcases List.mem_map.mp hi with ⟨pr, hpr, rfl⟩
    exact hr pr hpr
  | case2 r i rest hcont ih =>
    intro out h hq hr
    rw [resolveGo_cons, if_pos hcont] at h
    exact ih out h (fun j hj => hq j (List.mem_cons_of_mem i hj)) hr
  | case3 r i rest hcont hreg =>
    intro out h hq hr
    rw [resolveGo_cons, if_neg hcont, hreg] at h
    cases h
  | case4 r i rest hcont c hreg ih =>
    intro out h hq hr
    rw [resolveGo_cons, if_neg hcont, hreg] at h
    refine ih out h ?_ ?_
    · intro j hj
      rcases List.mem_append.mp hj with hrest | hfil
      · exact hq j (List.mem_cons_of_mem i hrest)
      · have hd : j ∈ c.registryDependencies := (List.mem_filter.mp hfil).1
        exact Reach.step i c j (hq i (List.mem_cons_self i rest)) hreg hd
    · intro pr hpr
      rcases List.mem_append.mp hpr with hl | hsing
      · exact hr pr hl
      · have : pr = (i, c) := by simpa using hsing
        rw [this]
        exact hq i (List.mem_cons_self i rest)

/-- Completeness: starting from an empty resolved mapping, every reachable
identifier is resolved on success. -/
theorem resolveGo_complete (reg : Registry) (roots : List String)
    (out : List (String × Component)) (h : resolveGo reg roots [] = .ok out) :
    ∀ i, Reach reg roots i → i ∈ out.map Prod.fst := by
  intro i hi
  induction hi with
  | root j hj => exact resolveGo_queue_mem reg roots [] out h j hj
  | step j c d hr hl hd ih =>
    rcases List.mem_map.mp ih with ⟨pr, hpr, hfst⟩
    have hlk := resolveGo_lookup reg roots [] out h (by simp) pr hpr
    rw [hfst, hl] at hlk
    have hc2 : pr.2 = c := Option.some_inj.mp hlk.symm
    have hdc : d ∈ pr.2.registryDependencies := by
      rw [hc2]
      exact hd
    exact resolveGo_closure reg roots [] out h (by simp) pr hpr d hdc

/-- After every root is resolved, anything newly resolved is not a root. -/
theorem resolveGo_post_roots (reg : Registry) (roots : List String)
    (queue : List String) (resolved : List (String × Component)) :
    ∀ out, resolveGo reg queue resolved = .ok out →
      (∀ i ∈ roots, i ∈ resolved.map Prod.fst) →
      ∀ pr ∈ out, pr ∉ resolved → pr.1 ∉ roots := by
  induction queue, resolved using resolveGo.induct reg with
  | case1 r =>
    intro out h hroots pr hpr hnotin
    rw [resolveGo_nil] at h
    cases Except.ok.inj h
    exact absurd hpr hnotin
  | case2 r i rest hcont ih =>
    intro out h hroots
    rw [resolveGo_cons, if_pos hcont] at h
    exact ih out h hroots
  | case3 r i rest hcont hreg =>
    intro out h hroots
    rw [resolveGo_cons, if_neg hcont, hreg] at h
    cases h
  | case4 r i rest hcont c hreg ih =>
    intro out h hroots pr hpr hnotin
    rw [resolveGo_cons, if_neg hcont, hreg] at h
    by_cases hin : pr ∈ r ++ [(i, c)]
    · rcases List.mem_append.mp hin with hl | hsing
      · exact absurd hl hnotin
      · have hpc : pr = (i, c) := by simpa using hsing
        subst hpc
        intro hri
        exact hcont (List.elem_iff.mpr (hroots i hri))
    · refine ih out h ?_ pr hpr hin
      intro j hj
      rw [List.map_append]
      exact List.mem_append_left _ (hroots j hj)

/-- Processing a queue whose front segment consists of roots, with all
resolved entries so far being roots and every root either pending in that
front segment or already resolved, yields an output that splits into a root
block followed by a non-root block. -/
theorem resolveGo_phase_split (reg : Registry) (roots : List String) :
    ∀ (qA qB : List String) (resolved : List (String × Component))
      (out : List (String × Component)),
      resolveGo reg (qA ++ qB) resolved = .ok out →
      (∀ i ∈ qA, i ∈ roots) →
      (∀ pr ∈ resolved, pr.1 ∈ roots) →
      (∀ i ∈ roots, i ∈ qA ∨ i ∈ resolved.map Prod.fst) →
      (resolved.map Prod.fst).Nodup →
      ∃ A B, out = A ++ B ∧ (∀ pr ∈ A, pr.1 ∈ roots) ∧
        (∀ pr ∈ B, pr.1 ∉ roots) := by
  intro qA
  induction qA with
  | nil =>
    intro qB r out h hA hr hroots hnd
    rw [List.nil_append] at h
    have hpre := resolveGo_extends reg qB r out h
    refine ⟨r, out.drop r.length, (List.prefix_iff_eq_append.mp hpre).symm, hr, ?_⟩
    intro pr hpr hproots
    have hrk : pr.1 ∈ r.map Prod.fst := by
      rcases hroots pr.1 hproots with hq | hk
      · cases hq
      · exact hk
    have hnd_out := resolveGo_nodup reg qB r out h hnd
    have hout_eq : out = r ++ out.drop r.length :=
      (List.prefix_iff_eq_append.mp hpre).symm
    rw [hout_eq, List.map_append] at hnd_out
    exact (List.nodup_append.mp hnd_out).2.2 hrk (List.mem_map_of_mem Prod.fst hpr)
  | cons i qA' ih =>
    intro qB r out h hA hr hroots hnd
    rw [List.cons_append, resolveGo_cons] at h
    by_cases hc : (r.map Prod.fst).contains i
    · rw [if_pos hc] at h
      refine ih qB r out h (fun j hj => hA j (List.mem_cons_of_mem i hj)) hr ?_ hnd
      intro j hj
      rcases hroots j hj with hq | hk
      · rcases List.mem_cons.mp hq with rfl | hq'
        · exact Or.inr (List.elem_iff.mp hc)
        · exact Or.inl hq'
      · exact Or.inr hk
    · rw [if_neg hc] at h
      rcases hl : regLookup reg i with _ | c
      · rw [hl] at h
        cases h
      · rw [hl] at h
        have h' : resolveGo reg
            ((qA' ++ qB) ++ c.registryDependencies.filter
              (fun d => !(((r ++ [(i, c)]).map Prod.fst).contains d)))
            (r ++ [(i, c)]) = .ok out := h
        rw [List.append_assoc] at h'
        have hiroot : i ∈ roots := hA i (List.mem_cons_self i qA')
        refine ih
          (qB ++ c.registryDependencies.filter
            (fun d => !(((r ++ [(i, c)]).map Prod.fst).contains d)))
          (r ++ [(i, c)]) out h'
          (fun j hj => hA j (List.mem_cons_of_mem i hj)) ?_ ?_ ?_
        · intro pr hpr
          rcases List.mem_append.mp hpr with hlr | hsing
          · exact hr pr hlr
          · have : pr = (i, c) := by simpa using hsing
            rw [this]
            exact hiroot
        · intro j hj
          rcases hroots j hj with hq | hk
          · rcases List.mem_cons.mp hq with rfl | hq'
            · refine Or.inr ?_
              rw [List.map_append]
              exact List.mem_append_right _ (by simp)
            · exact Or.inl hq'
          · refine Or.inr ?_
            rw [List.map_append]
            exact List.mem_append_left _ hk
        · rw [List.map_append]
          refine List.nodup_append.mpr ⟨hnd, by simp, ?_⟩
          intro a ha hb
          have : a = i := by simpa using hb
          subst this
          exact hc (List.elem_iff.mpr ha)


deriving instance DecidableEq for Except

/-- Any resolution error reports an identifier unknown to the registry. -/
theorem resolveGo_error_shape (reg : Registry) (queue : List String)
    (resolved : List (String × Component)) :
    ∀ e, resolveGo reg queue resolved = .error e →
      ∃ i, regLookup reg i = none ∧
        e = "Component \"" ++ i ++ "\" not found" := by
  induction queue, resolved using resolveGo.induct reg with
  | case1 r =>
    intro e h
    rw [resolveGo_nil] at h
    cases h
  | case2 r i rest hcont ih =>
    intro e h
    rw [resolveGo_cons, if_pos hcont] at h
    exact ih e h
  | case3 r i rest hcont hreg =>
    intro e h
    rw [resolveGo_cons, if_neg hcont, hreg] at h
    exact ⟨i, hreg, (Except.error.inj h).symm⟩
  | case4 r i rest hcont c hreg ih =>
    intro e h
    rw [resolveGo_cons, if_neg hcont, hreg] at h
    exact ih e h

/-- If some reachable identifier is unknown to the registry, resolution
cannot succeed. -/
theorem resolveGo_fails_of_unknown_reachable (reg : Registry) (ids : List String)
    (j : String) (hj : Reach reg ids j) (hl : regLookup reg j = none) :
    ∃ e, resolveGo reg ids [] = .error e := by
  rcases hres : resolveGo reg ids [] with e | out
  · exact ⟨e, rfl⟩
  · exfalso
    have hk := resolveGo_complete reg ids out hres j hj
    rcases List.mem_map.mp hk with ⟨pr, hpr, hfst⟩
    have hlk := resolveGo_lookup reg ids [] out hres (by simp) pr hpr
    rw [hfst, hl] at hlk
    cases hlk

/-- Acyclicity of the registry-dependency graph, witnessed by a rank
function strictly decreasing along dependency edges. -/
def AcyclicRegistry (reg : Registry) : Prop :=
  ∃ rank : String → Nat, ∀ i c, regLookup reg i = some c →
    ∀ d ∈ c.registryDependencies, rank d < rank i

/-- C1: for an acyclic registry-dependency graph, a successful resolution
returns each reachable identifier exactly once, with correct descriptors,
all requested identifiers before all dependency-only identifiers, the
output being exactly the order in which identifiers entered the resolved
mapping. -/
theorem resolve_closure_c1 (reg : Registry) (ids : List String)
    (out : List (String × Component))
    (hacyc : AcyclicRegistry reg)
    (h : resolveGo reg ids [] = .ok out) :
    resolveComponentsWithDependencies reg ids = .ok (out.map Prod.snd) ∧
    (out.map Prod.fst).Nodup ∧
    (∀ pr ∈ out, regLookup reg pr.1 = some pr.2) ∧
    (∀ i, i ∈ out.map Prod.fst ↔ Reach reg ids i) ∧
    (∃ A B, out = A ++ B ∧ (∀ pr ∈ A, pr.1 ∈ ids) ∧
      (∀ pr ∈ B, pr.1 ∉ ids)) := by
  refine ⟨?_, resolveGo_nodup reg ids [] out h (by simp),
    resolveGo_lookup reg ids [] out h (by simp), ?_, ?_⟩
  · rw [resolveComponentsWithDependencies, h]
    rfl
  · intro i
    constructor
    · exact fun hi => resolveGo_reach reg ids ids [] out h
        (fun j hj => Reach.root j hj) (by simp) i hi
    · exact resolveGo_complete reg ids out h i
  · exact resolveGo_phase_split reg ids ids [] [] out
      (by rw [List.append_nil]; exact h) (fun j hj => hj) (by simp)
      (fun j hj => Or.inl hj) (by simp)

/-- Two-cycle fixture: component `a` depends on `b`. -/
def cycComponentA : Component :=
  { id := "a", name := "A", description := "", category := "ui",
    dependencies := [], devDependencies := [], registryDependencies := ["b"],
    files := [] }

/-- Two-cycle fixture: component `b` depends back on `a`. -/
def cycComponentB : Component :=
  { id := "b", name := "B", description := "", category := "ui",
    dependencies := [], devDependencies := [], registryDependencies := ["a"],
    files := [] }

/-- Registry containing the two-cycle `a ↔ b`. -/
def cycReg : Registry := [("a", cycComponentA), ("b", cycComponentB)]

/-- C2: on the two-cycle registry resolution terminates and returns exactly
the descriptors of `a` and `b`, once each; in general a successful
resolution never records an identifier twice (an already resolved identifier
is never fetched again). -/
theorem resolve_cycle_c2 :
    resolveComponentsWithDependencies cycReg ["a"] =
      .ok [cycComponentA, cycComponentB] ∧
    ∀ (reg : Registry) (ids : List String) (out : List (String × Component)),
      resolveGo reg ids [] = .ok out → (out.map Prod.fst).Nodup := by
  constructor
  · rw [resolveComponentsWithDependencies,
      resolveGoFuel_sound cycReg 8 ["a"] []
        (.ok [("a", cycComponentA), ("b", cycComponentB)]) (by decide)]
    rfl
  · exact fun reg ids out h => resolveGo_nodup reg ids [] out h (by simp)

/-- Witness for the general part of the C2 theorem on the two-cycle run. -/
theorem resolve_cycle_c2_witness :
    (([("a", cycComponentA), ("b", cycComponentB)] :
      List (String × Component)).map Prod.fst).Nodup :=
  resolve_cycle_c2.2 cycReg ["a"] [("a", cycComponentA), ("b", cycComponentB)]
    (resolveGoFuel_sound cycReg 8 ["a"] []
      (.ok [("a", cycComponentA), ("b", cycComponentB)]) (by decide))


/-- A successful lookup comes from an actual registry entry. -/
theorem regLookup_mem (reg : Registry) (i : String) (c : Component)
    (h : regLookup reg i = some c) : (i, c) ∈ reg := by
  rcases hfind : reg.find? (fun e => e.1 == i) with _ | e
  · rw [regLookup, hfind] at h
    cases h
  · have hmem := List.mem_of_find?_eq_some hfind
    have heq := List.find?_some hfind
    simp only [beq_iff_eq] at heq
    rw [regLookup, hfind] at h
    have hc : e.2 = c := Option.some_inj.mp h
    have he : e = (i, c) := by
      rcases e with ⟨e1, e2⟩
      simp only at heq hc
      rw [heq, hc]
    rwa [he] at hmem

/-- Acyclic fixture: leaf component `button` with one external dependency. -/
def compButton : Component :=
  { id := "button", name := "Button", description := "", category := "ui",
    dependencies := ["clsx"], devDependencies := [], registryDependencies := [],
    files := [] }

/-- Acyclic fixture: component `card` depending on `button`. -/
def compCard : Component :=
  { id := "card", name := "Card", description := "", category := "ui",
    dependencies := ["clsx", "cva"], devDependencies := [],
    registryDependencies := ["button"], files := [] }

/-- Acyclic two-component registry `card → button`. -/
def acyReg : Registry := [("button", compButton), ("card", compCard)]

theorem acyReg_acyclic : AcyclicRegistry acyReg := by
  refine ⟨fun s => if s = "card" then 1 else 0, ?_⟩
  intro i c h d hd
  have hm := regLookup_mem acyReg i c h
  rcases List.mem_cons.mp hm with h1 | hm'
  · have hi := Prod.mk.inj h1
    obtain ⟨rfl, rfl⟩ := hi
    have : d ∈ ([] : List String) := hd
    cases this
  · rcases List.mem_cons.mp hm' with h2 | hm''
    · have hi := Prod.mk.inj h2
      obtain ⟨rfl, rfl⟩ := hi
      have : d ∈ ["button"] := hd
      have hdb : d = "button" := by simpa using this
      subst hdb
      simp
    · cases hm''

/-- Witness: C1 applied to the concrete acyclic registry `card → button`. -/
theorem resolve_closure_c1_witness :
    resolveComponentsWithDependencies acyReg ["card"] =
      .ok (([("card", compCard), ("button", compButton)] :
        List (String × Component)).map Prod.snd) ∧
    (([("card", compCard), ("button", compButton)] :
      List (String × Component)).map Prod.fst).Nodup ∧
    (∀ pr ∈ ([("card", compCard), ("button", compButton)] :
      List (String × Component)), regLookup acyReg pr.1 = some pr.2) ∧
    (∀ i, i ∈ ([("card", compCard), ("button", compButton)] :
      List (String × Component)).map Prod.fst ↔ Reach acyReg ["card"] i) ∧
    (∃ A B, ([("card", compCard), ("button", compButton)] :
      List (String × Component)) = A ++ B ∧
      (∀ pr ∈ A, pr.1 ∈ ["card"]) ∧ (∀ pr ∈ B, pr.1 ∉ ["card"])) :=
  resolve_closure_c1 acyReg ["card"]
    [("card", compCard), ("button", compButton)] acyReg_acyclic
    (resolveGoFuel_sound acyReg 8 ["card"] []
      (.ok [("card", compCard), ("button", compButton)]) (by decide))

end CmsKitCli


namespace CmsKitCli

/-- The filesystem seen through `existsSync`/`writeFile`: a map from target
paths to contents, modelled as an association list where the most recent
write shadows older entries. -/
abbrev FS := List (String × Str)

/-- Model of `existsSync` on a file path. -/
def fsHas (fs : FS) (p : String) : Bool :=
  (fs.map Prod.fst).contains p

/-- Content of the file at `p`, if present. -/
def fsLookup (fs : FS) (p : String) : Option Str :=
  (fs.find? (fun e => e.1 == p)).map (fun e => e.2)

/-- Model of `writeFile`: create or overwrite the file at `p` (directory
creation has no further observable effect in this model). -/
def fsWrite (fs : FS) (p : String) (v : Str) : FS := (p, v) :: fs

theorem fsHas_iff (fs : FS) (p : String) :
    fsHas fs p = true ↔ p ∈ fs.map Prod.fst :=
  List.elem_iff

theorem fsHas_write (fs : FS) (p q : String) (v : Str) :
    fsHas (fsWrite fs p v) q = true ↔ q = p ∨ fsHas fs q = true := by
  rw [fsHas_iff, fsWrite, fsHas_iff]
  simp

theorem fsHas_write_other (fs : FS) (p q : String) (v : Str) (hne : q ≠ p) :
    fsHas (fsWrite fs p v) q = fsHas fs q := by
  rcases hq : fsHas fs q with _ | _
  · rcases hw : fsHas (fsWrite fs p v) q with _ | _
    · rfl
    · rcases (fsHas_write fs p q v).mp hw with rfl | hk
      · exact absurd rfl hne
      · rw [hk] at hq
        cases hq
  · rw [(fsHas_write fs p q v).mpr (Or.inr hq)]

theorem fsLookup_write_self (fs : FS) (p : String) (v : Str) :
    fsLookup (fsWrite fs p v) p = some v := by
  rw [fsLookup, fsWrite]
  rw [List.find?_cons_of_pos _ (by simp)]
  rfl

theorem fsLookup_write_other (fs : FS) (p q : String) (v : Str) (hne : q ≠ p) :
    fsLookup (fsWrite fs p v) q = fsLookup fs q := by
  rw [fsLookup, fsWrite]
  rw [List.find?_cons_of_neg _ (by simpa using fun h => hne h.symm)]
  rfl


/-- One result record of `installComponents`, with optional fields exactly as
in the TypeScript interface. -/
structure InstallResult where
  component : String
  success : Bool
  files : Option (List String)
  dependencies : Option (List String)
  error : Option String
deriving DecidableEq

/-- Insertion into the `installedDeps` set (JavaScript `Set` semantics:
insertion order preserved, duplicates ignored). -/
def setAdd (s : List String) (x : String) : List String :=
  if s.contains x then s else s ++ [x]

/-- The per-file loop of `installComponent`: for each file, fail if the
target exists and the force flag is unset, otherwise write it (skipped in
dry-run mode) and record its path. A conflict aborts the rest of the loop,
leaving earlier writes in place. -/
def installFiles (force dryRun typescript : Bool) (dir : String) :
    List ComponentFile → FS → FS × Except String (List String)
  | [], fs => (fs, .ok [])
  | f :: rest, fs =>
    if fsHas fs (dir ++ "/" ++ f.path) ∧ ¬ force then
      (fs, .error ("File already exists: " ++ (dir ++ "/" ++ f.path)))
    else
      match installFiles force dryRun typescript dir rest
          (if dryRun then fs
           else fsWrite fs (dir ++ "/" ++ f.path)
             (processFileContent typescript f.content)) with
      | (fs'', .error e) => (fs'', .error e)
      | (fs'', .ok l) => (fs'', .ok ((dir ++ "/" ++ f.path) :: l))

/-- Model of `installComponent`: install the component files under
`targetPath/componentId/`, then merge its external dependencies into the
shared set. A file conflict is thrown as `.error`; partial writes persist. -/
def installComponent (force dryRun typescript : Bool) (c : Component)
    (targetPath : String) (st : FS × List String) :
    (FS × List String) × Except String InstallResult :=
  match installFiles force dryRun typescript (targetPath ++ "/" ++ c.id)
      c.files st.1 with
  | (fs', .error e) => ((fs', st.2), .error e)
  | (fs', .ok installedFiles) =>
    ((fs', (c.dependencies ++ c.devDependencies).foldl setAdd st.2),
     .ok { component := c.name, success := true,
           files := some installedFiles,
           dependencies := some (c.dependencies ++ c.devDependencies),
           error := none })

/-- The `catch` around one component's installation: a thrown error becomes
a failed result record naming the component. -/
def catchResult (c : Component) : Except String InstallResult → InstallResult
  | .ok r => r
  | .error e => { component := c.name, success := false, files := none,
                  dependencies := none, error := some e }

/-- The result-collection loop of `installComponents`: every component's
outcome, success or thrown failure, becomes one result record; a failure
never aborts the loop. -/
def installAllGo (force dryRun typescript : Bool) (targetPath : String) :
    List Component → FS × List String →
    (FS × List String) × List InstallResult
  | [], st => (st, [])
  | c :: cs, st =>
    let step := installComponent force dryRun typescript c targetPath st
    let next := installAllGo force dryRun typescript targetPath cs step.1
    (next.1, catchResult c step.2 :: next.2)

/-- Cumulative effect of writing a list of component files in order. -/
def writeAll (typescript : Bool) (dir : String) (files : List ComponentFile)
    (fs : FS) : FS :=
  files.foldl (fun a f =>
    fsWrite a (dir ++ "/" ++ f.path) (processFileContent typescript f.content)) fs

/-- The two match arms of the file loop keep the recursive filesystem. -/
theorem installFiles_match_fst (x : FS × Except String (List String)) (p : String) :
    (match x with
      | (fs'', .error e) => (fs'', Except.error e)
      | (fs'', .ok l) => (fs'', Except.ok (p :: l))).1 = x.1 := by
  rcases x with ⟨a, e | l⟩ <;> rfl

/-- In dry-run mode the file loop never changes the filesystem. -/
theorem installFiles_dry_fst (force typescript : Bool) (dir : String) :
    ∀ (files : List ComponentFile) (fs : FS),
      (installFiles force true typescript dir files fs).1 = fs := by
  intro files
  induction files with
  | nil =>
    intro fs
    rfl
  | cons f rest ih =>
    intro fs
    rw [installFiles]
    by_cases hc : fsHas fs (dir ++ "/" ++ f.path) = true ∧ ¬ force = true
    · rw [if_pos hc]
    · rw [if_neg hc]
      rw [installFiles_match_fst]
      exact ih fs

/-- C3 core: with the force flag unset, a run whose file list contains an
already-existing target stops at the first conflict, returning the error
naming that path, with exactly the files before the conflict written. -/
theorem installFiles_conflict (typescript : Bool) (dir : String) :
    ∀ (files : List ComponentFile) (fs : FS),
      (∃ f ∈ files, fsHas fs (dir ++ "/" ++ f.path) = true) →
      ∃ k, ∃ hk : k < files.length,
        installFiles false false typescript dir files fs =
          (writeAll typescript dir (files.take k) fs,
           .error ("File already exists: " ++
             (dir ++ "/" ++ (files.get ⟨k, hk⟩).path))) ∧
        fsHas (writeAll typescript dir (files.take k) fs)
          (dir ++ "/" ++ (files.get ⟨k, hk⟩).path) = true := by
  intro files
  induction files with
  | nil =>
    intro fs h
    rcases h with ⟨f, hf, _⟩
    cases hf
  | cons f rest ih =>
    intro fs hconf
    by_cases hf : fsHas fs (dir ++ "/" ++ f.path) = true
    · refine ⟨0, by simp, ?_, by simpa [writeAll] using hf⟩
      rw [installFiles, if_pos ⟨hf, by simp⟩]
      rfl
    · have hconf' : ∃ g ∈ rest,
          fsHas (fsWrite fs (dir ++ "/" ++ f.path)
            (processFileContent typescript f.content))
            (dir ++ "/" ++ g.path) = true := by
        rcases hconf with ⟨g, hg, hgh⟩
        rcases List.mem_cons.mp hg with rfl | hg'
        · exact absurd hgh hf
        · exact ⟨g, hg',
            (fsHas_write fs (dir ++ "/" ++ f.path) (dir ++ "/" ++ g.path) _).mpr
              (Or.inr hgh)⟩
      rcases ih _ hconf' with ⟨k, hk, heq, hhas⟩
      refine ⟨k + 1, Nat.succ_lt_succ hk, ?_, by simpa [writeAll] using hhas⟩
      rw [installFiles, if_neg (fun h => hf h.1)]
      rw [if_neg (by simp : ¬ (false = true))]
      rw [heq]
      rfl

/-- With the force flag unset, the file loop never touches a pre-existing
file: its presence and content are preserved, in any mode. -/
theorem installFiles_preserves (dryRun typescript : Bool) (dir : String) :
    ∀ (files : List ComponentFile) (fs : FS) (q : String), fsHas fs q = true →
      fsHas (installFiles false dryRun typescript dir files fs).1 q = true ∧
      fsLookup (installFiles false dryRun typescript dir files fs).1 q =
        fsLookup fs q := by
  intro files
  induction files with
  | nil =>
    intro fs q hq
    exact ⟨hq, rfl⟩
  | cons f rest ih =>
    intro fs q hq
    rw [installFiles]
    by_cases hf : fsHas fs (dir ++ "/" ++ f.path) = true
    · rw [if_pos ⟨hf, by simp⟩]
      exact ⟨hq, rfl⟩
    · rw [if_neg (fun h => hf h.1)]
      rw [installFiles_match_fst]
      have hne : q ≠ dir ++ "/" ++ f.path := fun h => hf (h ▸ hq)
      by_cases hd : dryRun = true
      · subst hd
        rw [if_pos rfl]
        exact ih fs q hq
      · rw [if_neg hd]
        have hq' : fsHas (fsWrite fs (dir ++ "/" ++ f.path)
            (processFileContent typescript f.content)) q = true :=
          (fsHas_write fs _ q _).mpr (Or.inr hq)
        rcases ih (fsWrite fs (dir ++ "/" ++ f.path)
          (processFileContent typescript f.content)) q hq' with ⟨h1, h2⟩
        exact ⟨h1, h2.trans (fsLookup_write_other fs _ q _ hne)⟩


/-- Congruence of the match arms of the file loop in the outcome component. -/
theorem installFiles_match_snd (p : String)
    (x y : FS × Except String (List String)) (h : x.2 = y.2) :
    (match x with
      | (fs'', .error e) => (fs'', Except.error e)
      | (fs'', .ok l) => (fs'', Except.ok (p :: l))).2 =
    (match y with
      | (fs'', .error e) => (fs'', Except.error e)
      | (fs'', .ok l) => (fs'', Except.ok (p :: l))).2 := by
  rcases x with ⟨a, e | l⟩ <;> rcases y with ⟨b, e2 | l2⟩ <;> dsimp only at h ⊢
  · exact congrArg Except.error (Except.error.inj h)
  · cases h
  · cases h
  · rw [Except.ok.inj h]

/-- Dry-run versus real run of the file loop: if every target of the list
has the same prior existence status in both filesystems and the targets are
pairwise distinct, both modes return the same outcome, and the real run only
touches the listed targets. -/
theorem installFiles_dry_real (force typescript : Bool) (dir : String) :
    ∀ (files : List ComponentFile) (fsR fsD : FS),
      (∀ f ∈ files, fsHas fsR (dir ++ "/" ++ f.path) =
        fsHas fsD (dir ++ "/" ++ f.path)) →
      (files.map (fun f => dir ++ "/" ++ f.path)).Nodup →
      (installFiles force false typescript dir files fsR).2 =
        (installFiles force true typescript dir files fsD).2 ∧
      (∀ q, q ∉ files.map (fun f => dir ++ "/" ++ f.path) →
        fsHas (installFiles force false typescript dir files fsR).1 q =
          fsHas fsR q) := by
  intro files
  induction files with
  | nil =>
    intro fsR fsD hsame hnd
    exact ⟨rfl, fun q _ => rfl⟩
  | cons f rest ih =>
    intro fsR fsD hsame hnd
    have hhead := hsame f (List.mem_cons_self f rest)
    rw [installFiles, installFiles]
    by_cases hcond : fsHas fsR (dir ++ "/" ++ f.path) = true ∧ ¬ force = true
    · have hcondD : fsHas fsD (dir ++ "/" ++ f.path) = true ∧ ¬ force = true :=
        ⟨hhead ▸ hcond.1, hcond.2⟩
      rw [if_pos hcond, if_pos hcondD]
      exact ⟨rfl, fun q _ => rfl⟩
    · have hcondD : ¬ (fsHas fsD (dir ++ "/" ++ f.path) = true ∧ ¬ force = true) := by
        intro h
        exact hcond ⟨hhead ▸ h.1, h.2⟩
      rw [if_neg hcond, if_neg hcondD]
      rw [if_neg (by simp : ¬ (false = true)), if_pos rfl]
      have hnd' := (List.nodup_cons.mp hnd)
      have hsame' : ∀ g ∈ rest,
          fsHas (fsWrite fsR (dir ++ "/" ++ f.path)
            (processFileContent typescript f.content)) (dir ++ "/" ++ g.path) =
          fsHas fsD (dir ++ "/" ++ g.path) := by
        intro g hg
        have hne : dir ++ "/" ++ g.path ≠ dir ++ "/" ++ f.path := by
          intro h
          apply hnd'.1
          show dir ++ "/" ++ f.path ∈ rest.map (fun f => dir ++ "/" ++ f.path)
          rw [← h]
          exact List.mem_map_of_mem (fun f => dir ++ "/" ++ f.path) hg
        rw [fsHas_write_other fsR _ _ _ hne]
        exact hsame g (List.mem_cons_of_mem f hg)
      rcases ih (fsWrite fsR (dir ++ "/" ++ f.path)
          (processFileContent typescript f.content)) fsD hsame' hnd'.2 with
        ⟨h2, hframe⟩
      constructor
      · exact installFiles_match_snd (dir ++ "/" ++ f.path) _ _ h2
      · intro q hq
        rw [installFiles_match_fst]
        have hq' : q ∉ rest.map (fun f => dir ++ "/" ++ f.path) := by
          intro h
          exact hq (List.mem_cons_of_mem _ h)
        have hqf : q ≠ dir ++ "/" ++ f.path := by
          intro h
          exact hq (h ▸ List.mem_cons_self _ _)
        rw [hframe q hq']
        exact fsHas_write_other fsR _ _ _ hqf


/-- Install targets of one component under a target path. -/
def targetsOf (targetPath : String) (c : Component) : List String :=
  c.files.map (fun f => targetPath ++ "/" ++ c.id ++ "/" ++ f.path)

/-- All install targets of a component list, in order. -/
def allTargets (targetPath : String) (cs : List Component) : List String :=
  cs.flatMap (targetsOf targetPath)

/-- A successful component installation reports the component display name. -/
theorem installComponent_ok_name (force dryRun typescript : Bool)
    (c : Component) (targetPath : String) (st : FS × List String)
    (r : InstallResult)
    (h : (installComponent force dryRun typescript c targetPath st).2 = .ok r) :
    r.component = c.name := by
  rw [installComponent] at h
  rcases hfi : installFiles force dryRun typescript (targetPath ++ "/" ++ c.id)
      c.files st.1 with ⟨a, e | l⟩ <;> rw [hfi] at h
  · cases h
  · rw [← Except.ok.inj h]

/-- The caught result of any component installation reports the component
display name. -/
theorem catchResult_name (force dryRun typescript : Bool) (c : Component)
    (targetPath : String) (st : FS × List String) :
    (catchResult c
      (installComponent force dryRun typescript c targetPath st).2).component =
      c.name := by
  rcases hst : (installComponent force dryRun typescript c targetPath st).2 with
    e | r
  · rfl
  · exact installComponent_ok_name force dryRun typescript c targetPath st r hst

/-- C4 core: the installation loop produces exactly one result per resolved
component, in order, each reporting its component's name. -/
theorem installAllGo_names (force dryRun typescript : Bool) (targetPath : String) :
    ∀ (cs : List Component) (st : FS × List String),
      ((installAllGo force dryRun typescript targetPath cs st).2).map
        (fun r => r.component) = cs.map (fun c => c.name) := by
  intro cs
  induction cs with
  | nil => intro st; rfl
  | cons c cs ih =>
    intro st
    rw [installAllGo]
    simp only [List.map_cons]
    rw [catchResult_name, ih]

/-- Dry-run versus real run of one component installation. -/
theorem installComponent_dry_real (force typescript : Bool)
    (targetPath : String) (c : Component) (fsR fsD : FS) (deps : List String)
    (hsame : ∀ t ∈ targetsOf targetPath c, fsHas fsR t = fsHas fsD t)
    (hnd : (targetsOf targetPath c).Nodup) :
    (installComponent force false typescript c targetPath (fsR, deps)).2 =
      (installComponent force true typescript c targetPath (fsD, deps)).2 ∧
    (installComponent force false typescript c targetPath (fsR, deps)).1.2 =
      (installComponent force true typescript c targetPath (fsD, deps)).1.2 ∧
    (installComponent force true typescript c targetPath (fsD, deps)).1.1 = fsD ∧
    (∀ q, q ∉ targetsOf targetPath c →
      fsHas (installComponent force false typescript c targetPath
        (fsR, deps)).1.1 q = fsHas fsR q) := by
  have hsame' : ∀ f ∈ c.files,
      fsHas fsR (targetPath ++ "/" ++ c.id ++ "/" ++ f.path) =
        fsHas fsD (targetPath ++ "/" ++ c.id ++ "/" ++ f.path) := fun f hf =>
    hsame _ (List.mem_map_of_mem _ hf)
  have hmain := installFiles_dry_real force typescript (targetPath ++ "/" ++ c.id)
    c.files fsR fsD hsame' hnd
  have hdryfs := installFiles_dry_fst force typescript (targetPath ++ "/" ++ c.id)
    c.files fsD
  rw [installComponent, installComponent]
  rcases hR : installFiles force false typescript (targetPath ++ "/" ++ c.id)
      c.files fsR with ⟨aR, eR | lR⟩ <;>
    rcases hD : installFiles force true typescript (targetPath ++ "/" ++ c.id)
        c.files fsD with ⟨aD, eD | lD⟩ <;>
    rw [hR, hD] at hmain <;> rw [hD] at hdryfs <;>
    dsimp only at hmain hdryfs ⊢
  · obtain ⟨he, hframe⟩ := hmain
    exact ⟨by rw [Except.error.inj he], rfl, hdryfs, fun q hq => hframe q hq⟩
  · exact absurd hmain.1 (by simp)
  · exact absurd hmain.1 (by simp)
  · obtain ⟨hl, hframe⟩ := hmain
    exact ⟨by rw [Except.ok.inj hl], rfl, hdryfs, fun q hq => hframe q hq⟩


/-- Dry-run versus real run of the whole installation loop: when all targets
of the run are pairwise distinct and agree in prior existence between the two
starting filesystems, both modes produce identical results and identical
dependency sets, the dry run leaves its filesystem untouched, and the real
run only touches its targets. -/
theorem installAllGo_dry_real (force typescript : Bool) (targetPath : String) :
    ∀ (cs : List Component) (fsR fsD : FS) (deps : List String),
      (∀ t ∈ allTargets targetPath cs, fsHas fsR t = fsHas fsD t) →
      (allTargets targetPath cs).Nodup →
      (installAllGo force false typescript targetPath cs (fsR, deps)).2 =
        (installAllGo force true typescript targetPath cs (fsD, deps)).2 ∧
      (installAllGo force false typescript targetPath cs (fsR, deps)).1.2 =
        (installAllGo force true typescript targetPath cs (fsD, deps)).1.2 ∧
      (installAllGo force true typescript targetPath cs (fsD, deps)).1.1 = fsD ∧
      (∀ q, q ∉ allTargets targetPath cs →
        fsHas (installAllGo force false typescript targetPath cs
          (fsR, deps)).1.1 q = fsHas fsR q) := by
  intro cs
  induction cs with
  | nil =>
    intro fsR fsD deps hsame hnd
    exact ⟨rfl, rfl, rfl, fun q _ => rfl⟩
  | cons c cs ih =>
    intro fsR fsD deps hsame hnd
    have hsplit : allTargets targetPath (c :: cs) =
        targetsOf targetPath c ++ allTargets targetPath cs := rfl
    rw [hsplit] at hsame hnd
    have hndc := List.nodup_append.mp hnd
    have hcomp := installComponent_dry_real force typescript targetPath c fsR fsD
      deps (fun t ht => hsame t (List.mem_append_left _ ht)) hndc.1
    obtain ⟨hstep2, hdeps2, hdryfs, hframeC⟩ := hcomp
    rw [installAllGo, installAllGo]
    have hstD : (installComponent force true typescript c targetPath
        (fsD, deps)).1 =
        (fsD, (installComponent force false typescript c targetPath
          (fsR, deps)).1.2) := by
      rcases hst : (installComponent force true typescript c targetPath
        (fsD, deps)).1 with ⟨a, b⟩
      rw [hst] at hdryfs hdeps2
      dsimp only at hdryfs hdeps2
      rw [hdryfs, hdeps2]
    have hstR : (installComponent force false typescript c targetPath
        (fsR, deps)).1 =
        ((installComponent force false typescript c targetPath (fsR, deps)).1.1,
         (installComponent force false typescript c targetPath
           (fsR, deps)).1.2) := rfl
    have hsame' : ∀ t ∈ allTargets targetPath cs,
        fsHas (installComponent force false typescript c targetPath
          (fsR, deps)).1.1 t = fsHas fsD t := by
      intro t ht
      rw [hframeC t (fun hin => (List.disjoint_left.mp hndc.2.2) hin ht)]
      exact hsame t (List.mem_append_right _ ht)
    have hrec := ih ((installComponent force false typescript c targetPath
        (fsR, deps)).1.1) fsD
      ((installComponent force false typescript c targetPath (fsR, deps)).1.2)
      hsame' hndc.2.1
    obtain ⟨hr2, hrdeps, hrdry, hrframe⟩ := hrec
    rw [hstD, hstR]
    refine ⟨?_, ?_, ?_, ?_⟩
    · rw [hstep2, hr2]
    · exact hrdeps
    · exact hrdry
    · intro q hq
      rw [hrframe q (fun hin => hq (List.mem_append_right _ hin))]
      exact hframeC q (fun hin => hq (List.mem_append_left _ hin))


/-- A dry-run component installation never changes the filesystem,
unconditionally. -/
theorem installComponent_dry_fst (force typescript : Bool) (c : Component)
    (targetPath : String) (st : FS × List String) :
    (installComponent force true typescript c targetPath st).1.1 = st.1 := by
  rw [installComponent]
  have hdry := installFiles_dry_fst force typescript (targetPath ++ "/" ++ c.id)
    c.files st.1
  rcases hfi : installFiles force true typescript (targetPath ++ "/" ++ c.id)
      c.files st.1 with ⟨a, e | l⟩ <;> rw [hfi] at hdry <;> exact hdry

/-- A dry-run installation loop never changes the filesystem,
unconditionally. -/
theorem installAllGo_dry_fst (force typescript : Bool) (targetPath : String) :
    ∀ (cs : List Component) (st : FS × List String),
      (installAllGo force true typescript targetPath cs st).1.1 = st.1 := by
  intro cs
  induction cs with
  | nil =>
    intro st
    rfl
  | cons c cs ih =>
    intro st
    rw [installAllGo]
    rw [ih (installComponent force true typescript c targetPath st).1]
    exact installComponent_dry_fst force typescript c targetPath st

/-- C3: installing one component with the force flag unset, when some file
target already exists, stops at the first conflicting file: the thrown error
names that path, exactly the files before it are written (no rollback), no
remaining file is written, every pre-existing file keeps its content, and
the caught result record is a failure carrying that error. -/
theorem install_conflict_c3 (typescript : Bool) (c : Component)
    (targetPath : String) (fs : FS) (deps : List String)
    (hconf : ∃ f ∈ c.files,
      fsHas fs (targetPath ++ "/" ++ c.id ++ "/" ++ f.path) = true) :
    ∃ k, ∃ hk : k < c.files.length,
      installComponent false false typescript c targetPath (fs, deps) =
        ((writeAll typescript (targetPath ++ "/" ++ c.id) (c.files.take k) fs,
          deps),
         .error ("File already exists: " ++
           (targetPath ++ "/" ++ c.id ++ "/" ++ (c.files.get ⟨k, hk⟩).path))) ∧
      fsHas (writeAll typescript (targetPath ++ "/" ++ c.id) (c.files.take k) fs)
        (targetPath ++ "/" ++ c.id ++ "/" ++ (c.files.get ⟨k, hk⟩).path) = true ∧
      (∀ q, fsHas fs q = true →
        fsLookup (writeAll typescript (targetPath ++ "/" ++ c.id)
          (c.files.take k) fs) q = fsLookup fs q) ∧
      (installAllGo false false typescript targetPath [c] (fs, deps)).2 =
        [{ component := c.name, success := false, files := none,
           dependencies := none,
           error := some ("File already exists: " ++
             (targetPath ++ "/" ++ c.id ++ "/" ++
               (c.files.get ⟨k, hk⟩).path)) }] := by
  rcases installFiles_conflict typescript (targetPath ++ "/" ++ c.id) c.files fs
    hconf with ⟨k, hk, heq, hhas⟩
  refine ⟨k, hk, ?_, hhas, ?_, ?_⟩
  · rw [installComponent]
    rw [heq]
  · intro q hq
    have hpres := (installFiles_preserves false typescript
      (targetPath ++ "/" ++ c.id) c.files fs q hq).2
    rw [heq] at hpres
    exact hpres
  · rw [installAllGo, installAllGo]
    rw [installComponent]
    rw [heq]
    rfl

end CmsKitCli

namespace CmsKitCli

/-- Model of `ComponentInstaller.installComponents`: resolve the closure of
the requested identifiers first, then install every resolved component in
resolution order, catching per-component failures as failed result records;
a resolution failure is rethrown with the state untouched. -/
def installComponents (reg : Registry) (force dryRun typescript : Bool)
    (componentIds : List String) (targetPath : String)
    (st : FS × List String) :
    (FS × List String) × Except String (List InstallResult) :=
  match resolveComponentsWithDependencies reg componentIds with
  | .error e => (st, .error e)
  | .ok comps =>
    ((installAllGo force dryRun typescript targetPath comps st).1,
     .ok (installAllGo force dryRun typescript targetPath comps st).2)

/-- An abstract filesystem for the find-up search: the set of existing
paths. A path is the reversed list of its segments, the filesystem root
being `[]`; `dirname` is the tail, and `join dir name` is `name :: dir`. -/
abbrev PathSet := List (List String)

/-- Model of `findUp` in `utils/file-system.ts`: starting at `dir`, check
the candidate names in order at each directory and walk up via `dirname`.
The loop runs only while the directory differs from the root, so the root
directory itself is never examined. -/
def findUp (names : List String) (fsys : PathSet) :
    List String → Option (List String)
  | [] => none
  | d :: parent =>
    match names.find? (fun n => fsys.contains (n :: d :: parent)) with
    | some n => some (n :: d :: parent)
    | none => findUp names fsys parent

/-- Modelled from the spec: the find-up search exactly as the claim words
it, checking the candidate filenames at every directory level up to and
including the filesystem root. It exists to compare the claim's wording
with the repository's `findUp`, which skips the root. -/
def findUpSpec (names : List String) (fsys : PathSet) :
    List String → Option (List String)
  | [] =>
    match names.find? (fun n => fsys.contains [n]) with
    | some n => some [n]
    | none => none
  | d :: parent =>
    match names.find? (fun n => fsys.contains (n :: d :: parent)) with
    | some n => some (n :: d :: parent)
    | none => findUpSpec names fsys parent

/-- Candidate filenames of `ProjectAnalyzer.findSvelteConfig`. -/
def svelteConfigNames : List String := ["svelte.config.js", "svelte.config.ts"]

/-- The failure projection of `ProjectAnalyzer.analyze`: the analysis
reports `No svelte.config.js found` exactly when `findUp` over the svelte
config candidates returns nothing; the remaining detections of `analyze`
never produce this error and are omitted from the model. -/
def analyzeError (fsys : PathSet) (cwd : List String) : Option String :=
  match findUp svelteConfigNames fsys cwd with
  | some _ => none
  | none => some "No svelte.config.js found"

/-- Fixture: a component whose two files share one target path. -/
def compDup : Component :=
  { id := "a", name := "A", description := "", category := "ui",
    dependencies := [], devDependencies := [], registryDependencies := [],
    files := [{ path := "f", content := [], kind := .component },
              { path := "f", content := [], kind := .component }] }

/-- Registry containing only the duplicate-target component. -/
def dupReg : Registry := [("a", compDup)]

/-- Fixture: a component with a single file. -/
def compSingle : Component :=
  { id := "s", name := "S", description := "", category := "ui",
    dependencies := ["left-pad"], devDependencies := [],
    registryDependencies := [],
    files := [{ path := "f", content := [], kind := .component }] }

/-- Registry containing only the single-file component. -/
def singleReg : Registry := [("s", compSingle)]

/-- Fixture: a two-file component used for the conflict witness. -/
def compConflict : Component :=
  { id := "w", name := "W", description := "", category := "ui",
    dependencies := [], devDependencies := [], registryDependencies := [],
    files := [{ path := "a.txt", content := [], kind := .component },
              { path := "b.txt", content := [], kind := .component }] }

/-- C4: whenever resolution succeeds, `installComponents` returns exactly
one result per resolved component, in resolution order, each named after
its component, regardless of any per-component installation failures; and
whenever resolution fails, the error is rethrown with the state untouched,
so throwing is reserved for the resolution phase. -/
theorem installComponents_results_c4 (reg : Registry)
    (force dryRun typescript : Bool) (ids : List String)
    (targetPath : String) (st : FS × List String) :
    (∀ comps, resolveComponentsWithDependencies reg ids = .ok comps →
      installComponents reg force dryRun typescript ids targetPath st =
        ((installAllGo force dryRun typescript targetPath comps st).1,
         .ok (installAllGo force dryRun typescript targetPath comps st).2) ∧
      ((installAllGo force dryRun typescript targetPath comps st).2).map
        (fun r => r.component) = comps.map (fun c => c.name)) ∧
    (∀ e, resolveComponentsWithDependencies reg ids = .error e →
      installComponents reg force dryRun typescript ids targetPath st =
        (st, .error e)) := by
  constructor
  · intro comps hres
    constructor
    · rw [installComponents, hres]
    · exact installAllGo_names force dryRun typescript targetPath comps st
  · intro e hres
    rw [installComponents, hres]

/-- Witness for C4 on the concrete registry `card → button`. -/
theorem installComponents_results_c4_witness :
    installComponents acyReg false false false ["card"] "t" ([], []) =
      ((installAllGo false false false "t" [compCard, compButton] ([], [])).1,
       .ok (installAllGo false false false "t"
         [compCard, compButton] ([], [])).2) ∧
    ((installAllGo false false false "t"
        [compCard, compButton] ([], [])).2).map (fun r => r.component) =
      [compCard, compButton].map (fun c => c.name) :=
  (installComponents_results_c4 acyReg false false false ["card"] "t"
    ([], [])).1 [compCard, compButton]
    (by
      rw [resolveComponentsWithDependencies,
        resolveGoFuel_sound acyReg 8 ["card"] []
          (.ok [("card", compCard), ("button", compButton)]) (by decide)]
      rfl)

/-- C6: if any identifier reachable from the requested set is unknown to
the registry, `installComponents` throws a component-not-found error
naming some unknown identifier, with the filesystem and dependency set
untouched and no results returned. -/
theorem installComponents_unknown_c6 (reg : Registry)
    (force dryRun typescript : Bool) (ids : List String)
    (targetPath : String) (st : FS × List String) (j : String)
    (hreach : Reach reg ids j) (hunknown : regLookup reg j = none) :
    ∃ i, regLookup reg i = none ∧
      installComponents reg force dryRun typescript ids targetPath st =
        (st, .error ("Component \"" ++ i ++ "\" not found")) := by
  rcases resolveGo_fails_of_unknown_reachable reg ids j hreach hunknown with
    ⟨e, he⟩
  rcases resolveGo_error_shape reg ids [] e he with ⟨i, hnone, rfl⟩
  refine ⟨i, hnone, ?_⟩
  rw [installComponents, resolveComponentsWithDependencies, he]
  rfl

/-- Witness for C6: requesting an identifier absent from the registry. -/
theorem installComponents_unknown_c6_witness :
    ∃ i, regLookup acyReg i = none ∧
      installComponents acyReg false false false ["ghost"] "t" ([], []) =
        (([], []), .error ("Component \"" ++ i ++ "\" not found")) :=
  installComponents_unknown_c6 acyReg false false false ["ghost"] "t"
    ([], []) "ghost" (Reach.root "ghost" (by decide)) (by decide)

/-- C7 counterexample: with a component whose two files share one target
path, a dry run reports success while a real run from the same (empty)
filesystem reports a file-exists failure, so dry-run results are not
always identical to real-run results. -/
theorem dryRun_shape_counterexample_c7 :
    (installComponents dupReg false true true ["a"] "t" ([], [])).2 ≠
      (installComponents dupReg false false true ["a"] "t" ([], [])).2 := by
  have hres : resolveComponentsWithDependencies dupReg ["a"] = .ok [compDup] := by
    rw [resolveComponentsWithDependencies,
      resolveGoFuel_sound dupReg 4 ["a"] [] (.ok [("a", compDup)]) (by decide)]
    rfl
  rw [installComponents, installComponents, hres]
  decide

/-- C7 (amended): a dry run never creates or writes any file, for every
registry, request list and starting state, unconditionally; and whenever
resolution succeeds with components whose target paths are pairwise
distinct, the dry run returns exactly the results and dependency set of a
real run started from the same filesystem state. -/
theorem dryRun_amended_c7 (reg : Registry) (force typescript : Bool)
    (ids : List String) (targetPath : String) :
    (∀ st : FS × List String,
      (installComponents reg force true typescript ids targetPath st).1.1 =
        st.1) ∧
    (∀ (fs : FS) (deps : List String) (comps : List Component),
      resolveComponentsWithDependencies reg ids = .ok comps →
      (allTargets targetPath comps).Nodup →
      (installComponents reg force true typescript ids targetPath
          (fs, deps)).2 =
        (installComponents reg force false typescript ids targetPath
          (fs, deps)).2 ∧
      (installComponents reg force true typescript ids targetPath
          (fs, deps)).1.2 =
        (installComponents reg force false typescript ids targetPath
          (fs, deps)).1.2) := by
  constructor
  · intro st
    rw [installComponents]
    rcases h : resolveComponentsWithDependencies reg ids with e | comps
    · rfl
    · exact installAllGo_dry_fst force typescript targetPath comps st
  · intro fs deps comps hres hnd
    have hmain := installAllGo_dry_real force typescript targetPath comps fs fs
      deps (fun t _ => rfl) hnd
    obtain ⟨h2, hdeps, hdry, hframe⟩ := hmain
    constructor
    · rw [installComponents, installComponents, hres]
      dsimp only
      rw [Except.ok.injEq]
      exact h2.symm
    · rw [installComponents, installComponents, hres]
      dsimp only
      exact hdeps.symm

/-- Witness for the amended C7 on the single-file registry, discharging the
resolution and distinct-targets hypotheses concretely. -/
theorem dryRun_amended_c7_witness :
    (∀ st : FS × List String,
      (installComponents singleReg false true false ["s"] "t" st).1.1 =
        st.1) ∧
    ((installComponents singleReg false true false ["s"] "t" ([], [])).2 =
      (installComponents singleReg false false false ["s"] "t" ([], [])).2 ∧
    (installComponents singleReg false true false ["s"] "t" ([], [])).1.2 =
      (installComponents singleReg false false false ["s"] "t" ([], [])).1.2) :=
  ⟨(dryRun_amended_c7 singleReg false false ["s"] "t").1,
   (dryRun_amended_c7 singleReg false false ["s"] "t").2 [] [] [compSingle]
     (by
       rw [resolveComponentsWithDependencies,
         resolveGoFuel_sound singleReg 4 ["s"] [] (.ok [("s", compSingle)])
           (by decide)]
       rfl)
     (by decide)⟩

/-- Witness for C3 on a concrete component whose second file conflicts. -/
theorem install_conflict_c3_witness :
    ∃ k, ∃ hk : k < compConflict.files.length,
      installComponent false false false compConflict "t"
          ([("t/w/b.txt", [])], []) =
        ((writeAll false ("t" ++ "/" ++ compConflict.id)
            (compConflict.files.take k) [("t/w/b.txt", [])], []),
         .error ("File already exists: " ++
           ("t" ++ "/" ++ compConflict.id ++ "/" ++
             (compConflict.files.get ⟨k, hk⟩).path))) ∧
      fsHas (writeAll false ("t" ++ "/" ++ compConflict.id)
          (compConflict.files.take k) [("t/w/b.txt", [])])
        ("t" ++ "/" ++ compConflict.id ++ "/" ++
          (compConflict.files.get ⟨k, hk⟩).path) = true ∧
      (∀ q, fsHas [("t/w/b.txt", [])] q = true →
        fsLookup (writeAll false ("t" ++ "/" ++ compConflict.id)
          (compConflict.files.take k) [("t/w/b.txt", [])]) q =
          fsLookup [("t/w/b.txt", [])] q) ∧
      (installAllGo false false false "t" [compConflict]
          ([("t/w/b.txt", [])], [])).2 =
        [{ component := compConflict.name, success := false, files := none,
           dependencies := none,
           error := some ("File already exists: " ++
             ("t" ++ "/" ++ compConflict.id ++ "/" ++
               (compConflict.files.get ⟨k, hk⟩).path)) }] :=
  install_conflict_c3 false compConflict "t" [("t/w/b.txt", [])] []
    ⟨{ path := "b.txt", content := [], kind := .component }, by decide,
      by decide⟩

/-- C9 counterexample: with a svelte config file existing only at the
filesystem root, `analyze` still fails, although the search described by
the claim (checking every directory level up to and including the root)
finds the file: the code's `findUp` never examines the root directory. -/
theorem analyze_findUp_counterexample_c9 :
    analyzeError [["svelte.config.js"]] ["proj"] =
      some "No svelte.config.js found" ∧
    findUpSpec svelteConfigNames [["svelte.config.js"]] ["proj"] =
      some ["svelte.config.js"] := by
  constructor <;> decide

/-- C9 (amended): `analyze` fails with the no-framework-config error
exactly when `findUp` — which checks the candidate names in order at each
directory level strictly below the filesystem root, the root itself
excluded — finds nothing; the nearest such level containing a candidate
wins, and the search always terminates. -/
theorem analyze_findUp_amended_c9 (fsys : PathSet) (cwd : List String) :
    (analyzeError fsys cwd = some "No svelte.config.js found" ↔
      findUp svelteConfigNames fsys cwd = none) ∧
    (∀ d parent, cwd = d :: parent →
      (∃ n ∈ svelteConfigNames, (n :: d :: parent) ∈ fsys) →
      ∃ n, n ∈ svelteConfigNames ∧
        findUp svelteConfigNames fsys cwd = some (n :: d :: parent)) := by
  constructor
  · rw [analyzeError]
    rcases h : findUp svelteConfigNames fsys cwd with _ | p <;> simp
  · intro d parent hcwd hex
    subst hcwd
    rw [findUp]
    rcases hf : svelteConfigNames.find?
        (fun n => fsys.contains (n :: d :: parent)) with _ | n
    · exfalso
      rcases hex with ⟨n, hn, hmem⟩
      have hfn := List.find?_eq_none.mp hf n hn
      exact hfn (List.elem_iff.mpr hmem)
    · have hnmem := List.mem_of_find?_eq_some hf
      exact ⟨n, hnmem, rfl⟩

/-- Witness for the amended C9: a config one level below the root. -/
theorem analyze_findUp_amended_c9_witness :
    ∃ n, n ∈ svelteConfigNames ∧
      findUp svelteConfigNames [["svelte.config.js", "proj"]] ["proj"] =
        some (n :: "proj" :: []) :=
  (analyze_findUp_amended_c9 [["svelte.config.js", "proj"]] ["proj"]).2
    "proj" [] rfl ⟨"svelte.config.js", by decide, by decide⟩

end CmsKitCli
